import Mathlib

/-!
Verification of the metric-voting representation engine
(`src/metric_voting/measurements.py`) against its specification.

The cost matrix is embedded as a list of rows (`List (List ℚ)`), with exact
rational arithmetic standing in for `float64` entries.  The one place where
a claim is specifically about floating-point rounding — the proportional
size computation `int(bloc_size / n * k)` — is modelled bit-exactly by
`roundD`, round-to-nearest-even onto a 53-bit binary significand, which
agrees with IEEE-754 binary64 on the normal range (all values arising
there).  Fallible operations (`raise ValueError`) return `Except String`.
A non-finite float result (`inf`/`nan` from dividing by a zero denominator)
is modelled as `none` in an `Option ℚ`.
-/

namespace MetricVoting

/-- Round a rational to the nearest integer, ties to even. -/
def rnte (q : ℚ) : ℤ :=
  let f := ⌊q⌋
  let r := q - f
  if r < 1/2 then f
  else if 1/2 < r then f + 1
  else if 2 ∣ f then f else f + 1

/-- Floor of the base-2 logarithm of a natural number, fuelled recursion
(`fuel ≥ n` suffices); structural so the kernel can evaluate it. -/
def log2fuel : ℕ → ℕ → ℕ
  | 0, _ => 0
  | f + 1, n => if n ≤ 1 then 0 else log2fuel f (n / 2) + 1

/-- Ceiling of the base-2 logarithm of a natural number, fuelled recursion
(`fuel ≥ n` suffices). -/
def clog2fuel : ℕ → ℕ → ℕ
  | 0, _ => 0
  | f + 1, n => if n ≤ 1 then 0 else clog2fuel f ((n + 1) / 2) + 1

/-- `⌊log₂ q⌋` for a positive rational `q = a / b`: for `q ≥ 1` it is
`⌊log₂ ⌊q⌋⌋`, for `q < 1` it is `-⌈log₂ ⌈q⁻¹⌉⌉`. -/
def qlog2 (q : ℚ) : ℤ :=
  let a := q.num.toNat
  let b := q.den
  if b ≤ a then (log2fuel a (a / b) : ℤ)
  else -((clog2fuel b ((b + a - 1) / a)) : ℤ)

/-- Round to nearest (ties to even) onto a binary floating-point number with a
53-bit significand and unbounded exponent.  This agrees with IEEE-754 binary64
rounding on the normal range, which covers every value arising in the
proportional size computation. -/
def roundD (q : ℚ) : ℚ :=
  if q = 0 then 0
  else if 0 < q then
    ((rnte (q * 2 ^ (52 - qlog2 q)) : ℚ)) * 2 ^ (qlog2 q - 52)
  else
    -(((rnte ((-q) * 2 ^ (52 - qlog2 (-q))) : ℚ)) * 2 ^ (qlog2 (-q) - 52))

/-- Python slice `l[:k]`: for `k ≥ 0` the first `k` elements, for `k < 0` all
but the last `-k` elements (clamped at the empty list). -/
def pySlice {α : Type} (l : List α) (k : ℤ) : List α :=
  if 0 ≤ k then l.take k.toNat else l.take (l.length - (-k).toNat)

/-- `np.sort` on a 1-d array: the ascending sorted permutation. -/
def sortAsc (l : List ℚ) : List ℚ :=
  l.insertionSort (· ≤ ·)

/-- `cost`: sum of all entries of the cost array. -/
def cost (cst_array : List (List ℚ)) : ℚ :=
  (cst_array.map List.sum).sum

/-- `candidate_costs`: per-candidate row sums of the cost array. -/
def candidate_costs (cst_array : List (List ℚ)) : List ℚ :=
  cst_array.map List.sum

/-- `np.sum(np.sort(v)[:size])`: the sum of the `size` first entries of the
sorted list (Python slice semantics for negative `size`). -/
def sortedTakeSum (l : List ℚ) (size : ℤ) : ℚ :=
  (pySlice (sortAsc l) size).sum

/-- `proportional_assignment_cost`: raises when `size` exceeds the number of
rows, otherwise sums the `size` smallest per-candidate row sums. -/
def proportional_assignment_cost (cst_array : List (List ℚ)) (size : ℤ) :
    Except String ℚ :=
  if (cst_array.length : ℤ) < size then Except.error "Requested size is too large!"
  else Except.ok (sortedTakeSum (candidate_costs cst_array) size)

/-- Boolean-mask column selection `row[voter_labels == bloc_label]` for one row. -/
def selectCols (row : List ℚ) (voter_labels : List ℤ) (bloc_label : ℤ) : List ℚ :=
  ((row.zip voter_labels).filter (fun p => p.2 == bloc_label)).map Prod.fst

/-- `cst_array[:, voter_labels == bloc_label]`. -/
def bloc_dists (cst_array : List (List ℚ)) (voter_labels : List ℤ)
    (bloc_label : ℤ) : List (List ℚ) :=
  cst_array.map (fun row => selectCols row voter_labels bloc_label)

/-- Fancy row indexing `arr[winner_indices, :]`. -/
def selectRows (cst_array : List (List ℚ)) (idxs : List ℕ) : List (List ℚ) :=
  idxs.map (fun i => cst_array.getD i [])

/-- `np.sum(voter_labels == bloc_label)`. -/
def countLabel (voter_labels : List ℤ) (bloc_label : ℤ) : ℕ :=
  (voter_labels.filter (fun x => x == bloc_label)).length

/-- Number of columns (`n` of `cst_array.shape`) of a rectangular matrix. -/
def ncols (cst_array : List (List ℚ)) : ℕ :=
  (cst_array.headD []).length

/-- `int(bloc_size / n * k)` evaluated in IEEE-754 double precision: both
operands of `/` are converted to double, the quotient is rounded, `k` is
converted to double, the product is rounded, and the result is truncated
toward zero (= floor, since all quantities are non-negative). -/
def proportionalSize (bloc_size n k : ℕ) : ℤ :=
  ⌊roundD (roundD (roundD (bloc_size : ℚ) / roundD (n : ℚ)) * roundD (k : ℚ))⌋

/-- `group_inefficiency`.  `Except.error` models the `ValueError` raised by
`proportional_assignment_cost`; the payload `none` models the non-finite
float (`inf` or `nan`) produced by `cost1 / cost2` when `cost2 == 0`. -/
def group_inefficiency (cst_array : List (List ℚ)) (winner_indices : List ℕ)
    (voter_labels : List ℤ) (bloc_label : ℤ) (size? : Option ℤ) :
    Except String (Option ℚ) :=
  let n := ncols cst_array
  let k := winner_indices.length
  let size : ℤ :=
    match size? with
    | none => proportionalSize (countLabel voter_labels bloc_label) n k
    | some s => s
  if size ≠ 0 then
    let bloc := bloc_dists cst_array voter_labels bloc_label
    match proportional_assignment_cost (selectRows bloc winner_indices) size with
    | Except.error e => Except.error e
    | Except.ok cost1 =>
      match proportional_assignment_cost bloc size with
      | Except.error e => Except.error e
      | Except.ok cost2 =>
        Except.ok (if cost2 = 0 then none else some (cost1 / cost2))
  else
    Except.ok (some 0)

/-- Sequence a fallible function over a list, stopping at the first error;
models a Python loop whose body may raise. -/
def exceptMap {α β : Type} (f : α → Except String β) : List α → Except String (List β)
  | [] => Except.ok []
  | a :: l =>
    match f a with
    | Except.error e => Except.error e
    | Except.ok b =>
      match exceptMap f l with
      | Except.error e => Except.error e
      | Except.ok bs => Except.ok (b :: bs)

/-- `cost_array`: entry `(i, j)` is `distance_fn(voter_positions[j],
candidate_positions[i])`.  The distance function may raise (e.g. on a
dimension mismatch), modelled by `Except`. -/
def cost_array (voter_positions candidate_positions : List (List ℚ))
    (distance_fn : List ℚ → List ℚ → Except String ℚ) :
    Except String (List (List ℚ)) :=
  exceptMap (fun c => exceptMap (fun v => distance_fn v c) voter_positions)
    candidate_positions

/-- Modelled from the spec: `utils.euclidean_distance` is imported by
`measurements.py` but its source is not under `src/`.  Per the spec it is the
standard Euclidean distance, `sqrt` of the sum of squared coordinate
differences; the square root (a float64 operation) is passed as an abstract
function so that both construction modes share it exactly. -/
def euclidean_distance (sqrt : ℚ → ℚ) (x y : List ℚ) : ℚ :=
  sqrt ((List.zipWith (fun a b => (a - b) ^ 2) x y).sum)

/-- `euclidean_cost_array`: vectorized fast path; entry `(i, j)` is
`sqrt(Σ_d (voter_j[d] - candidate_i[d])²)`. -/
def euclidean_cost_array (sqrt : ℚ → ℚ)
    (voter_positions candidate_positions : List (List ℚ)) : List (List ℚ) :=
  candidate_positions.map (fun c =>
    voter_positions.map (fun v =>
      sqrt ((List.zipWith (fun a b => (a - b) ^ 2) v c).sum)))

/-- Modelled from the spec: `utils.random_voter_bloc` is imported by
`measurements.py` but its source is not under `src/`.  The ambient numpy
random stream is modelled as a natural-number state threaded explicitly;
`nextU` produces the next uniform draw in `[0, 1)` together with the
successor state. -/
def nextU (g : ℕ) : ℚ × ℕ :=
  (((g % 1009 : ℕ) : ℚ) / 1009, g / 1009)

/-- Pick an index from a weighted list by cumulative scan: the first index
whose cumulative weight exceeds the draw `u`. -/
def pickAux : List (ℕ × ℚ) → ℚ → ℕ
  | [], _ => 0
  | [(i, _)], _ => i
  | (i, w) :: p :: rest, u => if u < w then i else pickAux (p :: rest) (u - w)

/-- Weighted sampling without replacement of `count` indices, consuming the
random state. -/
def sampleWithoutReplacement : ℕ → List (ℕ × ℚ) → ℕ → List ℕ × ℕ
  | 0, _, g => ([], g)
  | c + 1, items, g =>
    let ug := nextU g
    let total := (items.map Prod.snd).sum
    let i := pickAux items (ug.1 * total)
    let rest := sampleWithoutReplacement c (items.filter (fun p => p.1 != i)) ug.2
    (i :: rest.1, rest.2)

/-- Modelled from the spec: `utils.random_voter_bloc` (not under `src/`)
draws a bloc of voters without replacement from the supplied weight
distribution, sized so the bloc is proportionally entitled to `t`
representatives out of `k` (`⌈t·n/k⌉`, clamped to `n`), consuming the
ambient random state. -/
def random_voter_bloc (n k t : ℕ) (weights : List ℚ) (g : ℕ) : List ℕ × ℕ :=
  let blocSize := min n ((t * n + k - 1) / k)
  sampleWithoutReplacement blocSize ((List.range n).zip weights) g

/-- Column `j` of the cost array. -/
def column (cst_array : List (List ℚ)) (j : ℕ) : List ℚ :=
  cst_array.map (fun row => row.getD j 0)

/-- `random_group_inefficiency`.  The Python function has no random-source
parameter; it reads numpy's ambient global stream, modelled here as the
explicit extra state `g` (threaded in and returned). -/
def random_group_inefficiency (cost_arr : List (List ℚ)) (winner_indices : List ℕ)
    (t : ℕ) (weights? : Option (List ℚ)) (g : ℕ) :
    (Except String (Option ℚ) × List ℕ) × ℕ :=
  let n := ncols cost_arr
  let k := winner_indices.length
  let weights :=
    match weights? with
    | some w => w
    | none =>
      let winner_set_cost := (List.range n).map
        (fun j => sortedTakeSum (column (selectRows cost_arr winner_indices) j) (t : ℤ))
      let candidate_set_cost := (List.range n).map
        (fun j => sortedTakeSum (column cost_arr j) (t : ℤ))
      let greedy_scores := List.zipWith (· / ·) winner_set_cost candidate_set_cost
      greedy_scores.map (fun s => s / greedy_scores.sum)
  let bloc := random_voter_bloc n k t weights g
  let labels := (List.range n).map (fun j => if j ∈ bloc.1 then (1 : ℤ) else 0)
  ((group_inefficiency cost_arr winner_indices labels 1 none, bloc.1), bloc.2)

end MetricVoting

attribute [local semireducible] Rat.add Rat.mul Rat.inv Rat.sub

set_option maxRecDepth 200000

namespace MetricVoting

open List

theorem sortAsc_perm (l : List ℚ) : sortAsc l ~ l :=
  List.perm_insertionSort _ l

theorem sortAsc_sorted (l : List ℚ) : (sortAsc l).Sorted (· ≤ ·) :=
  List.sorted_insertionSort _ l

theorem sortAsc_length (l : List ℚ) : (sortAsc l).length = l.length :=
  List.length_insertionSort _ l

theorem sortAsc_congr {l₁ l₂ : List ℚ} (h : l₁ ~ l₂) : sortAsc l₁ = sortAsc l₂ :=
  List.eq_of_perm_of_sorted ((sortAsc_perm l₁).trans (h.trans (sortAsc_perm l₂).symm))
    (sortAsc_sorted l₁) (sortAsc_sorted l₂)

/-- In a sorted list, the sum of the first `k` entries is bounded above by the
sum of the first `k` entries of any of its sublists. -/
theorem take_sum_le_of_sublist {B A : List ℚ} (h : B <+ A) :
    A.Sorted (· ≤ ·) → ∀ k, k ≤ B.length → (A.take k).sum ≤ (B.take k).sum := by
  induction h with
  | slnil =>
    intro _ k hk
    simp only [List.length_nil, Nat.le_zero] at hk
    simp [hk]
  | @cons l₁ l₂ a h ih =>
    intro hA k hk
    cases k with
    | zero => simp
    | succ j =>
      have hs : l₂.Sorted (· ≤ ·) := hA.of_cons
      have h1 := ih hs (j + 1) hk
      have hj : j < l₂.length := Nat.lt_of_lt_of_le (Nat.lt_of_lt_of_le j.lt_succ_self hk)
        h.length_le
      have h2 : (l₂.take (j + 1)).sum = (l₂.take j).sum + l₂[j] := List.sum_take_succ _ _ hj
      have ha : a ≤ l₂[j] := (List.sorted_cons.mp hA).1 _ (l₂.getElem_mem hj)
      rw [List.take_succ_cons, List.sum_cons]
      linarith
  | @cons₂ l₁ l₂ a h ih =>
    intro hA k hk
    cases k with
    | zero => simp
    | succ j =>
      have hs : l₂.Sorted (· ≤ ·) := hA.of_cons
      have h1 := ih hs j (Nat.le_of_succ_le_succ hk)
      simp only [List.take_succ_cons, List.sum_cons]
      linarith

theorem subperm_map {α β : Type} (f : α → β) {l₁ l₂ : List α} (h : l₁ <+~ l₂) :
    l₁.map f <+~ l₂.map f := by
  obtain ⟨l, hp, hs⟩ := h
  exact ⟨l.map f, hp.map f, hs.map f⟩

theorem sortAsc_sublist_of_subperm {l₁ l₂ : List ℚ} (h : l₁ <+~ l₂) :
    sortAsc l₁ <+ sortAsc l₂ := by
  have h2 : sortAsc l₁ <+~ sortAsc l₂ :=
    ((sortAsc_perm l₁).subperm.trans h).trans (sortAsc_perm l₂).symm.subperm
  obtain ⟨C, hp, hs⟩ := h2
  have hCs : C.Sorted (· ≤ ·) := List.Pairwise.sublist hs (sortAsc_sorted l₂)
  have hCe : C = sortAsc l₁ :=
    List.eq_of_perm_of_sorted hp hCs (sortAsc_sorted l₁)
  rwa [hCe] at hs

theorem pySlice_natCast {α : Type} (l : List α) (k : ℕ) :
    pySlice l (k : ℤ) = l.take k := by
  simp [pySlice]

/-- The `k` smallest entries of a multiset never sum to less than the `k`
smallest entries of any larger multiset containing it. -/
theorem sortedTakeSum_le_of_subperm {l₁ l₂ : List ℚ} (h : l₁ <+~ l₂) {k : ℕ}
    (hk : k ≤ l₁.length) : sortedTakeSum l₂ (k : ℤ) ≤ sortedTakeSum l₁ (k : ℤ) := by
  have hsub := sortAsc_sublist_of_subperm h
  have hlen : k ≤ (sortAsc l₁).length := by rw [sortAsc_length]; exact hk
  have := take_sum_le_of_sublist hsub (sortAsc_sorted l₂) k hlen
  simpa [sortedTakeSum, pySlice_natCast] using this

/-- The sorted-take sum is attained by an actual sublist of the given length. -/
theorem exists_sublist_sortedTakeSum (l : List ℚ) {k : ℕ} (hk : k ≤ l.length) :
    ∃ t, t <+ l ∧ t.length = k ∧ t.sum = sortedTakeSum l (k : ℤ) := by
  have h1 : (sortAsc l).take k <+~ l :=
    (List.take_sublist k (sortAsc l)).subperm.trans (sortAsc_perm l).subperm
  obtain ⟨C, hp, hs⟩ := h1
  refine ⟨C, hs, ?_, ?_⟩
  · rw [hp.length_eq, List.length_take, sortAsc_length]
    exact Nat.min_eq_left hk
  · rw [hp.sum_eq, sortedTakeSum, pySlice_natCast]

/-- The sorted-take sum is a lower bound on the total of every sublist of the
same length. -/
theorem sortedTakeSum_le_sum_of_sublist {t l : List ℚ} (ht : t <+ l) :
    sortedTakeSum l (t.length : ℤ) ≤ t.sum := by
  have h := sortedTakeSum_le_of_subperm ht.subperm (le_refl t.length)
  refine le_trans h (le_of_eq ?_)
  rw [sortedTakeSum, pySlice_natCast]
  rw [show t.length = (sortAsc t).length from (sortAsc_length t).symm, List.take_length]
  exact (sortAsc_perm t).sum_eq

theorem mem_pySlice {α : Type} {l : List α} {k : ℤ} {x : α} (h : x ∈ pySlice l k) :
    x ∈ l := by
  unfold pySlice at h
  split at h <;> exact List.mem_of_mem_take h

theorem sortedTakeSum_nonneg {l : List ℚ} (h : ∀ x ∈ l, 0 ≤ x) (k : ℤ) :
    0 ≤ sortedTakeSum l k := by
  apply List.sum_nonneg
  intro x hx
  exact h x (((sortAsc_perm l).mem_iff).mp (mem_pySlice hx))

theorem range_map_getD {α : Type} (l : List α) (d : α) :
    (List.range l.length).map (fun i => l.getD i d) = l := by
  apply List.ext_getElem
  · simp
  · intro i h1 h2
    simp [List.getD_eq_getElem, h2]

end MetricVoting

namespace MetricVoting

open List

theorem candidate_costs_length (cst_array : List (List ℚ)) :
    (candidate_costs cst_array).length = cst_array.length := by
  simp [candidate_costs]

/-- `proportional_assignment_cost` succeeds (with the sorted-take sum) exactly
when the requested size does not exceed the number of rows. -/
theorem pac_ok {X : List (List ℚ)} {s : ℤ} (h : s ≤ (X.length : ℤ)) :
    proportional_assignment_cost X s =
      Except.ok (sortedTakeSum (candidate_costs X) s) := by
  unfold proportional_assignment_cost
  rw [if_neg (not_lt.mpr h)]

/-- C7: `proportional_assignment_cost` raises a size-validation error if and
only if the requested size exceeds the number of candidate rows `m`; for every
`size ≤ m` (including zero and negative sizes) it returns a value without
raising. -/
theorem proportional_assignment_cost_error_iff (cst_array : List (List ℚ)) (size : ℤ) :
    (∃ e, proportional_assignment_cost cst_array size = Except.error e) ↔
      (cst_array.length : ℤ) < size := by
  unfold proportional_assignment_cost
  constructor
  · intro ⟨e, he⟩
    by_contra hlt
    rw [if_neg hlt] at he
    exact Except.noConfusion he
  · intro h
    rw [if_pos h]
    exact ⟨_, rfl⟩

/-- C3: for `0 ≤ size ≤ m`, `proportional_assignment_cost` returns the sum of
the `size` smallest per-candidate row sums: a value attained by an actual
`size`-element subset of the rows, and minimal among the aggregate row-sum
totals of all `size`-element subsets (greedy selection by aggregate row cost). -/
theorem proportional_assignment_cost_min_subset (cst_array : List (List ℚ)) (s : ℕ)
    (hs : s ≤ cst_array.length) :
    ∃ q, proportional_assignment_cost cst_array (s : ℤ) = Except.ok q ∧
      (∃ t, t <+ candidate_costs cst_array ∧ t.length = s ∧ t.sum = q) ∧
      (∀ t, t <+ candidate_costs cst_array → t.length = s → q ≤ t.sum) := by
  have hs' : s ≤ (candidate_costs cst_array).length := by
    rw [candidate_costs_length]; exact hs
  refine ⟨sortedTakeSum (candidate_costs cst_array) (s : ℤ), ?_, ?_, ?_⟩
  · exact pac_ok (by exact_mod_cast hs)
  · obtain ⟨t, h1, h2, h3⟩ := exists_sublist_sortedTakeSum (candidate_costs cst_array) hs'
    exact ⟨t, h1, h2, h3⟩
  · intro t ht hlen
    have := sortedTakeSum_le_sum_of_sublist ht
    rwa [hlen] at this

/-- Witness for C3 at a concrete input. -/
theorem proportional_assignment_cost_min_subset_witness :
    (2 : ℕ) ≤ ([[(1:ℚ), 2], [3, 4], [0, 1]] : List (List ℚ)).length ∧
      ∃ q, proportional_assignment_cost [[(1:ℚ), 2], [3, 4], [0, 1]] ((2 : ℕ) : ℤ) =
          Except.ok q ∧
        (∃ t, t <+ candidate_costs [[(1:ℚ), 2], [3, 4], [0, 1]] ∧ t.length = 2 ∧
          t.sum = q) ∧
        (∀ t, t <+ candidate_costs [[(1:ℚ), 2], [3, 4], [0, 1]] → t.length = 2 →
          q ≤ t.sum) :=
  ⟨by decide, proportional_assignment_cost_min_subset [[(1:ℚ), 2], [3, 4], [0, 1]] 2
    (by decide)⟩

end MetricVoting

namespace MetricVoting

open List

theorem bloc_dists_length (cst_array : List (List ℚ)) (voter_labels : List ℤ)
    (bloc_label : ℤ) :
    (bloc_dists cst_array voter_labels bloc_label).length = cst_array.length := by
  simp [bloc_dists]

theorem selectRows_length (cst_array : List (List ℚ)) (idxs : List ℕ) :
    (selectRows cst_array idxs).length = idxs.length := by
  simp [selectRows]

/-- Distinct in-range row indices select a sub-multiset of the rows. -/
theorem selectRows_subperm {cst_array : List (List ℚ)} {idxs : List ℕ}
    (hnd : idxs.Nodup) (hbd : ∀ i ∈ idxs, i < cst_array.length) :
    selectRows cst_array idxs <+~ cst_array := by
  have h1 : idxs <+~ List.range cst_array.length :=
    hnd.subperm (fun i hi => List.mem_range.mpr (hbd i hi))
  have h2 := subperm_map (fun i => cst_array.getD i []) h1
  rw [range_map_getD cst_array []] at h2
  exact h2

theorem mem_selectCols {row : List ℚ} {voter_labels : List ℤ} {bloc_label : ℤ}
    {x : ℚ} (h : x ∈ selectCols row voter_labels bloc_label) : x ∈ row := by
  unfold selectCols at h
  obtain ⟨p, hp, he⟩ := List.mem_map.mp h
  have hz : p ∈ row.zip voter_labels := List.mem_of_mem_filter hp
  have hr : p.1 ∈ row := (List.of_mem_zip hz).1
  rwa [he] at hr

theorem candidate_costs_bloc_nonneg {cst_array : List (List ℚ)}
    {voter_labels : List ℤ} {bloc_label : ℤ}
    (hnn : ∀ row ∈ cst_array, ∀ x ∈ row, (0 : ℚ) ≤ x) :
    ∀ c ∈ candidate_costs (bloc_dists cst_array voter_labels bloc_label), 0 ≤ c := by
  intro c hc
  obtain ⟨row', hrow', he⟩ := List.mem_map.mp hc
  obtain ⟨row, hrow, he2⟩ := List.mem_map.mp hrow'
  rw [← he]
  apply List.sum_nonneg
  intro x hx
  rw [← he2] at hx
  exact hnn row hrow x (mem_selectCols hx)

/-- Evaluation of `group_inefficiency` on an explicit nonzero size that is
within range for both restricted and unrestricted candidate pools. -/
theorem gi_some_eval (cst_array : List (List ℚ)) (winner_indices : List ℕ)
    (voter_labels : List ℤ) (bloc_label : ℤ) {s : ℤ} (hs0 : s ≠ 0)
    (h1 : s ≤ ((selectRows (bloc_dists cst_array voter_labels bloc_label)
      winner_indices).length : ℤ))
    (h2 : s ≤ ((bloc_dists cst_array voter_labels bloc_label).length : ℤ)) :
    group_inefficiency cst_array winner_indices voter_labels bloc_label (some s) =
      Except.ok
        (if sortedTakeSum (candidate_costs (bloc_dists cst_array voter_labels
            bloc_label)) s = 0
         then none
         else some (sortedTakeSum (candidate_costs (selectRows
            (bloc_dists cst_array voter_labels bloc_label) winner_indices)) s /
          sortedTakeSum (candidate_costs (bloc_dists cst_array voter_labels
            bloc_label)) s)) := by
  unfold group_inefficiency
  simp only [ne_eq, hs0, not_false_eq_true, if_true, pac_ok h1, pac_ok h2]

/-- `group_inefficiency` with explicit size 0 returns 0. -/
theorem gi_some_zero (cst_array : List (List ℚ)) (winner_indices : List ℕ)
    (voter_labels : List ℤ) (bloc_label : ℤ) :
    group_inefficiency cst_array winner_indices voter_labels bloc_label (some 0) =
      Except.ok (some 0) := by
  unfold group_inefficiency
  simp

/-- `group_inefficiency` with proportionally computed size 0 returns 0. -/
theorem gi_none_size_zero {cst_array : List (List ℚ)} {winner_indices : List ℕ}
    {voter_labels : List ℤ} {bloc_label : ℤ}
    (h : proportionalSize (countLabel voter_labels bloc_label) (ncols cst_array)
      winner_indices.length = 0) :
    group_inefficiency cst_array winner_indices voter_labels bloc_label none =
      Except.ok (some 0) := by
  unfold group_inefficiency
  simp [h]

end MetricVoting

namespace MetricVoting

open List

/-- C1: for every cost matrix with non-negative entries, valid (distinct,
in-range) winner indices, any labeling, and any explicit size with
`0 < size ≤ #winners` whose all-candidates best-subset cost is nonzero,
`group_inefficiency` returns a score `≥ 1`: the sum of the `size` smallest
row sums over the winner rows of the bloc-restricted matrix is never less
than over all rows. -/
theorem group_inefficiency_ge_one (cst_array : List (List ℚ))
    (winner_indices : List ℕ) (voter_labels : List ℤ) (bloc_label : ℤ) (s : ℕ)
    (hnn : ∀ row ∈ cst_array, ∀ x ∈ row, (0 : ℚ) ≤ x)
    (hnd : winner_indices.Nodup)
    (hbd : ∀ i ∈ winner_indices, i < cst_array.length)
    (hpos : 0 < s) (hsk : s ≤ winner_indices.length)
    (hc2 : sortedTakeSum (candidate_costs (bloc_dists cst_array voter_labels
      bloc_label)) (s : ℤ) ≠ 0) :
    ∃ q, group_inefficiency cst_array winner_indices voter_labels bloc_label
        (some (s : ℤ)) = Except.ok (some q) ∧ 1 ≤ q := by
  have hbl := bloc_dists_length cst_array voter_labels bloc_label
  have hbd2 : ∀ i ∈ winner_indices,
      i < (bloc_dists cst_array voter_labels bloc_label).length := by
    intro i hi; rw [hbl]; exact hbd i hi
  have hrows : selectRows (bloc_dists cst_array voter_labels bloc_label)
      winner_indices <+~ bloc_dists cst_array voter_labels bloc_label :=
    selectRows_subperm hnd hbd2
  have hcs : candidate_costs (selectRows (bloc_dists cst_array voter_labels
      bloc_label) winner_indices) <+~
      candidate_costs (bloc_dists cst_array voter_labels bloc_label) :=
    subperm_map List.sum hrows
  have hkm : winner_indices.length ≤
      (bloc_dists cst_array voter_labels bloc_label).length := by
    have := hrows.length_le
    rwa [selectRows_length] at this
  have h1 : (s : ℤ) ≤ ((selectRows (bloc_dists cst_array voter_labels bloc_label)
      winner_indices).length : ℤ) := by
    rw [selectRows_length]; exact_mod_cast hsk
  have h2 : (s : ℤ) ≤ ((bloc_dists cst_array voter_labels bloc_label).length : ℤ) := by
    exact_mod_cast le_trans hsk hkm
  have hs0 : (s : ℤ) ≠ 0 := by exact_mod_cast hpos.ne'
  have hmono : sortedTakeSum (candidate_costs (bloc_dists cst_array voter_labels
      bloc_label)) (s : ℤ) ≤
      sortedTakeSum (candidate_costs (selectRows (bloc_dists cst_array
        voter_labels bloc_label) winner_indices)) (s : ℤ) := by
    apply sortedTakeSum_le_of_subperm hcs
    rw [candidate_costs_length, selectRows_length]
    exact hsk
  have hnng : 0 ≤ sortedTakeSum (candidate_costs (bloc_dists cst_array
      voter_labels bloc_label)) (s : ℤ) :=
    sortedTakeSum_nonneg (candidate_costs_bloc_nonneg hnn) _
  have hpos2 : 0 < sortedTakeSum (candidate_costs (bloc_dists cst_array
      voter_labels bloc_label)) (s : ℤ) := lt_of_le_of_ne hnng (Ne.symm hc2)
  refine ⟨sortedTakeSum (candidate_costs (selectRows (bloc_dists cst_array
      voter_labels bloc_label) winner_indices)) (s : ℤ) /
      sortedTakeSum (candidate_costs (bloc_dists cst_array voter_labels
        bloc_label)) (s : ℤ), ?_, ?_⟩
  · rw [gi_some_eval cst_array winner_indices voter_labels bloc_label hs0 h1 h2,
      if_neg hc2]
  · rw [one_le_div hpos2]
    exact hmono

/-- Witness for C1 at a concrete input. -/
theorem group_inefficiency_ge_one_witness :
    (0 < 1 ∧ 1 ≤ ([0] : List ℕ).length) ∧
      ∃ q, group_inefficiency [[(2 : ℚ)]] [0] [5] 5 (some ((1 : ℕ) : ℤ)) =
          Except.ok (some q) ∧ 1 ≤ q :=
  ⟨⟨by decide, by decide⟩,
    group_inefficiency_ge_one [[(2 : ℚ)]] [0] [5] 5 1
      (by decide) (by decide) (by decide) (by decide) (by decide) (by decide)⟩

/-- C6: if the winner indices enumerate all `m` candidate rows (in any order),
then for every size `0 < s ≤ m` with nonzero denominator, the score is
exactly 1. -/
theorem group_inefficiency_full_pool (cst_array : List (List ℚ))
    (winner_indices : List ℕ) (voter_labels : List ℤ) (bloc_label : ℤ) (s : ℕ)
    (hperm : winner_indices ~ List.range cst_array.length)
    (hpos : 0 < s) (hsm : s ≤ cst_array.length)
    (hc2 : sortedTakeSum (candidate_costs (bloc_dists cst_array voter_labels
      bloc_label)) (s : ℤ) ≠ 0) :
    group_inefficiency cst_array winner_indices voter_labels bloc_label
      (some (s : ℤ)) = Except.ok (some 1) := by
  have hbl := bloc_dists_length cst_array voter_labels bloc_label
  have hrows : selectRows (bloc_dists cst_array voter_labels bloc_label)
      winner_indices ~ bloc_dists cst_array voter_labels bloc_label := by
    have h1 := hperm.map
      (fun i => (bloc_dists cst_array voter_labels bloc_label).getD i [])
    rw [show cst_array.length =
        (bloc_dists cst_array voter_labels bloc_label).length from hbl.symm,
      range_map_getD] at h1
    exact h1
  have hcs : candidate_costs (selectRows (bloc_dists cst_array voter_labels
      bloc_label) winner_indices) ~
      candidate_costs (bloc_dists cst_array voter_labels bloc_label) :=
    hrows.map List.sum
  have heq : sortedTakeSum (candidate_costs (selectRows (bloc_dists cst_array
      voter_labels bloc_label) winner_indices)) (s : ℤ) =
      sortedTakeSum (candidate_costs (bloc_dists cst_array voter_labels
        bloc_label)) (s : ℤ) := by
    unfold sortedTakeSum
    rw [sortAsc_congr hcs]
  have hk : winner_indices.length = cst_array.length := by
    rw [hperm.length_eq, List.length_range]
  have hs0 : (s : ℤ) ≠ 0 := by exact_mod_cast hpos.ne'
  have h1 : (s : ℤ) ≤ ((selectRows (bloc_dists cst_array voter_labels bloc_label)
      winner_indices).length : ℤ) := by
    rw [selectRows_length, hk]; exact_mod_cast hsm
  have h2 : (s : ℤ) ≤ ((bloc_dists cst_array voter_labels bloc_label).length : ℤ) := by
    rw [hbl]; exact_mod_cast hsm
  rw [gi_some_eval cst_array winner_indices voter_labels bloc_label hs0 h1 h2,
    if_neg hc2, heq, div_self hc2]

/-- Witness for C6 at a concrete input. -/
theorem group_inefficiency_full_pool_witness :
    ([1, 0] ~ List.range ([[(1 : ℚ), 2], [3, 4]] : List (List ℚ)).length) ∧
      group_inefficiency [[(1 : ℚ), 2], [3, 4]] [1, 0] [7, 7] 7
        (some ((2 : ℕ) : ℤ)) = Except.ok (some 1) :=
  ⟨by decide, group_inefficiency_full_pool [[(1 : ℚ), 2], [3, 4]] [1, 0] [7, 7] 7 2
    (by decide) (by decide) (by decide) (by decide)⟩

/-- C4: whenever the effective representative-set size is 0 — supplied
explicitly as 0, or computed proportionally as 0 — `group_inefficiency`
returns exactly 0 and no error. -/
theorem group_inefficiency_size_zero (cst_array : List (List ℚ))
    (winner_indices : List ℕ) (voter_labels : List ℤ) (bloc_label : ℤ)
    (size? : Option ℤ)
    (h : size? = some 0 ∨ (size? = none ∧
      proportionalSize (countLabel voter_labels bloc_label) (ncols cst_array)
        winner_indices.length = 0)) :
    group_inefficiency cst_array winner_indices voter_labels bloc_label size? =
      Except.ok (some 0) := by
  rcases h with h | ⟨h, hz⟩
  · rw [h]
    exact gi_some_zero cst_array winner_indices voter_labels bloc_label
  · rw [h]
    exact gi_none_size_zero hz

/-- Witness for C4 at a concrete input (empty bloc, proportionally sized). -/
theorem group_inefficiency_size_zero_witness :
    proportionalSize (countLabel [0, 0] 1) (ncols [[(1 : ℚ), 2]]) 1 = 0 ∧
      group_inefficiency [[(1 : ℚ), 2]] [0] [0, 0] 1 none = Except.ok (some 0) :=
  ⟨by decide, group_inefficiency_size_zero [[(1 : ℚ), 2]] [0] [0, 0] 1 none
    (Or.inr ⟨rfl, by decide⟩)⟩

/-- C2 (failing input): with `cst_array = [[0]]`, `winner_indices = [0]`,
`voter_labels = [0]`, `bloc_label = 0`, `size = 1`, both `cost1` and `cost2`
are 0 and the code evaluates `cost1 / cost2` unguarded, producing a
non-finite float (NaN), modelled as `none` — no explicit handling exists. -/
theorem group_inefficiency_cost2_zero_unguarded :
    group_inefficiency [[(0 : ℚ)]] [0] [0] 0 (some 1) = Except.ok none := by
  rw [show (1 : ℤ) = ((1 : ℕ) : ℤ) from rfl,
    gi_some_eval [[(0 : ℚ)]] [0] [0] 0 (by decide) (by decide) (by decide),
    if_pos (by decide)]

end MetricVoting

namespace MetricVoting

open List

/-- C5 (counterexample): with `bloc_size = 1`, `n = 49`, `k = 49`, the code's
double-precision evaluation `int(1/49 * 49)` yields 0, while the exact
mathematical `floor(1 * 49 / 49) = 1`; consequently `group_inefficiency` on a
`1 × 49` matrix of ones with 49 winner indices and a single labelled voter
takes the size-0 path and returns 0. -/
theorem proportionalSize_not_exact_floor :
    proportionalSize 1 49 49 = 0 ∧ ⌊((1 * 49 : ℕ) : ℚ) / ((49 : ℕ) : ℚ)⌋ = 1 ∧
      group_inefficiency [List.replicate 49 (1 : ℚ)] (List.replicate 49 0)
        ((1 : ℤ) :: List.replicate 48 0) 1 none = Except.ok (some 0) :=
  ⟨by decide, by norm_num, gi_none_size_zero (by decide)⟩

/-- C5 (amended): when no size is supplied, the representative-set size is
`int(bloc_size / n * k)` evaluated in IEEE-754 double precision; whenever each
intermediate rounding is exact this equals the exact mathematical
`floor(bloc_size * k / n)`, but not in general (see the counterexample). -/
theorem proportionalSize_eq_floor_of_exact (b n k : ℕ)
    (hb : roundD ((b : ℕ) : ℚ) = ((b : ℕ) : ℚ))
    (hn : roundD ((n : ℕ) : ℚ) = ((n : ℕ) : ℚ))
    (hk : roundD ((k : ℕ) : ℚ) = ((k : ℕ) : ℚ))
    (hq : roundD (((b : ℕ) : ℚ) / ((n : ℕ) : ℚ)) = ((b : ℕ) : ℚ) / ((n : ℕ) : ℚ))
    (hp : roundD (((b : ℕ) : ℚ) / ((n : ℕ) : ℚ) * ((k : ℕ) : ℚ)) =
      ((b : ℕ) : ℚ) / ((n : ℕ) : ℚ) * ((k : ℕ) : ℚ)) :
    proportionalSize b n k = ⌊((b * k : ℕ) : ℚ) / ((n : ℕ) : ℚ)⌋ := by
  unfold proportionalSize
  rw [hb, hn, hk, hq, hp, div_mul_eq_mul_div]
  norm_num

/-- Witness for the amended C5 at a concrete input where the float computation
is exact. -/
theorem proportionalSize_eq_floor_of_exact_witness :
    roundD (((1 : ℕ) : ℚ) / ((2 : ℕ) : ℚ)) = ((1 : ℕ) : ℚ) / ((2 : ℕ) : ℚ) ∧
      proportionalSize 1 2 2 = ⌊((1 * 2 : ℕ) : ℚ) / ((2 : ℕ) : ℚ)⌋ :=
  ⟨by decide, proportionalSize_eq_floor_of_exact 1 2 2 (by decide) (by decide)
    (by decide) (by decide) (by decide)⟩

theorem exceptMap_ok {α β : Type} (f : α → β) (l : List α) :
    exceptMap (fun x => Except.ok (f x)) l = Except.ok (l.map f) := by
  induction l with
  | nil => rfl
  | cons a l ih => rw [exceptMap, ih]; rfl

/-- C8 (counterexample): with an empty voter set, `cost_array` silently
returns the `1 × 0` matrix — even when the distance function raises a
dimension-mismatch error on every pair — instead of failing. -/
theorem cost_array_empty_voters_silent :
    cost_array [] [[(0 : ℚ)]] (fun _ _ => Except.error "dimension-mismatch") =
      Except.ok [[]] :=
  rfl

/-- C8 (amended): `cost_array` performs no input validation of its own: with
an empty voter set or an empty candidate set it silently returns the
corresponding empty cost matrix; dimension mismatches surface only if the
supplied distance function itself raises on some pair. -/
theorem cost_array_empty_silent (voter_positions candidate_positions : List (List ℚ))
    (distance_fn : List ℚ → List ℚ → Except String ℚ)
    (h : voter_positions = [] ∨ candidate_positions = []) :
    cost_array voter_positions candidate_positions distance_fn =
      Except.ok (candidate_positions.map (fun _ => ([] : List ℚ))) := by
  rcases h with h | h
  · subst h
    unfold cost_array
    exact exceptMap_ok (fun _ => []) candidate_positions
  · subst h
    rfl

/-- Witness for the amended C8 at a concrete input (empty candidate set). -/
theorem cost_array_empty_silent_witness :
    (([[(0 : ℚ)]] : List (List ℚ)) = [] ∨ ([] : List (List ℚ)) = []) ∧
      cost_array [[(0 : ℚ)]] [] (fun _ _ => Except.error "dimension-mismatch") =
        Except.ok [] :=
  ⟨Or.inr rfl, cost_array_empty_silent [[(0 : ℚ)]] []
    (fun _ _ => Except.error "dimension-mismatch") (Or.inr rfl)⟩

/-- C9: for non-empty voter and candidate sets of equal dimensionality, the
generic construction mode with the Euclidean distance function produces
exactly the same matrix as the vectorized Euclidean fast path (both apply the
same square root to the same sum of squared coordinate differences). -/
theorem euclidean_cost_array_eq_cost_array (sqrt : ℚ → ℚ)
    (voter_positions candidate_positions : List (List ℚ)) (d : ℕ)
    (hv : voter_positions ≠ []) (hc : candidate_positions ≠ [])
    (hdv : ∀ p ∈ voter_positions, p.length = d)
    (hdc : ∀ p ∈ candidate_positions, p.length = d) :
    cost_array voter_positions candidate_positions
        (fun v c => Except.ok (euclidean_distance sqrt v c)) =
      Except.ok (euclidean_cost_array sqrt voter_positions candidate_positions) := by
  unfold cost_array euclidean_cost_array euclidean_distance
  simp only [exceptMap_ok]

/-- Witness for C9 at a concrete input. -/
theorem euclidean_cost_array_eq_cost_array_witness :
    (([[(0 : ℚ), 0]] : List (List ℚ)) ≠ [] ∧ ([[(3 : ℚ), 4]] : List (List ℚ)) ≠ []) ∧
      cost_array [[(0 : ℚ), 0]] [[(3 : ℚ), 4]]
          (fun v c => Except.ok (euclidean_distance id v c)) =
        Except.ok (euclidean_cost_array id [[(0 : ℚ), 0]] [[(3 : ℚ), 4]]) :=
  ⟨⟨by decide, by decide⟩, euclidean_cost_array_eq_cost_array id
    [[(0 : ℚ), 0]] [[(3 : ℚ), 4]] 2 (by decide) (by decide)
    (by intro p hp; fin_cases hp; rfl) (by intro p hp; fin_cases hp; rfl)⟩

end MetricVoting

namespace MetricVoting

/-- C10 (failing input): `random_group_inefficiency` has no random-source
parameter; its sampled bloc is a function of numpy's ambient global stream
(modelled as the threaded state `g`).  With identical explicit inputs
(`cost_arr = [[1,2],[2,1]]`, `winner_indices = [0,1]`, `t = 1`,
`weights = [1/2, 1/2]`) but different ambient states, two calls return
different sampled voter index sets — the function draws implicit global
randomness. -/
theorem random_group_inefficiency_depends_on_global_state :
    (random_group_inefficiency [[1, 2], [2, 1]] [0, 1] 1
        (some [1/2, 1/2]) 0).1.2 = [0] ∧
      (random_group_inefficiency [[1, 2], [2, 1]] [0, 1] 1
        (some [1/2, 1/2]) 505).1.2 = [1] :=
  ⟨by decide, by decide⟩

end MetricVoting
